import Mathlib

/-!
Verification development for the TabBrain duplicate-detection core:
URL normalization (`normalizeUrl`, `getDomain`, `isInternalUrl`), exact and
near-duplicate clustering (`findDuplicateTabs`, `findNearDuplicateTabs`,
`findDuplicateBookmarks`, `getDuplicateTabsToRemove`), token-budget batching
(`estimateTokens`, `splitIntoBatches`) and the retry helper (`retry`).

JavaScript strings are modelled as Lean `String`s (sequences of unicode
scalar values), JavaScript numbers as `Int`/`Nat`/`ℚ` as appropriate (the
numeric values occurring in these functions are small integers and simple
fractions, where exact rational arithmetic agrees with the double-precision
evaluation on all inputs considered here).
-/

namespace TabBrain

/-! ### Generic character and list helpers -/

/-- Splitting a character list at every occurrence of a separator, keeping
empty pieces, like JavaScript `String.prototype.split` with a single-character
separator. -/
def splitAtChar (sep : Char) : List Char → List (List Char)
  | [] => [[]]
  | c :: cs =>
    if c = sep then [] :: splitAtChar sep cs
    else
      match splitAtChar sep cs with
      | [] => [[c]]
      | piece :: pieces => (c :: piece) :: pieces

/-- Lowercasing every character of a string; models JavaScript
`String.prototype.toLowerCase` on the ASCII range (the only range the
repository relies on). -/
def toLowerStr (s : String) : String := (s.data.map Char.toLower).asString

/-! ### The platform URL parser

Modelled from the platform: the WHATWG `new URL(input)` constructor, restricted
to the fields the repository reads (`protocol`, `hostname`, `port`, `pathname`,
`search`, `hash`).  Simplifications of the model, none of which the claims
depend on: no percent-decoding or dot-segment normalization inside the path,
no user-info (`user:pass@host` inputs are rejected), no IPv6 bracket hosts,
no backslash-as-slash conversion, and an `http(s):` URL must be written with
the `//` authority marker.  As in the platform, parsing fails (the constructor
throws) when the input has no valid `scheme:` prefix, and scheme and hostname
come out lowercased. -/

structure URLParts where
  protocol : String
  hostname : String
  port : String
  pathname : String
  search : String
  hash : String
deriving Repr, DecidableEq

def isSchemeChar (c : Char) : Bool :=
  c.isAlpha || c.isDigit || c == '+' || c == '-' || c == '.'

def validSchemeChars : List Char → Bool
  | [] => false
  | c :: cs => c.isAlpha && cs.all isSchemeChar

def isAuthEnd (c : Char) : Bool := c == '/' || c == '?' || c == '#'

def isPathEnd (c : Char) : Bool := c == '?' || c == '#'

def parseHttpRest (scheme : String) (afterColon : List Char) : Option URLParts :=
  match afterColon with
  | '/' :: '/' :: afterSlashes =>
    let authority := afterSlashes.takeWhile (fun c => !isAuthEnd c)
    let afterAuth := afterSlashes.dropWhile (fun c => !isAuthEnd c)
    if authority.any (fun c => c == '@' || c == '[' || c == ']') then none
    else
      let hostRaw := authority.takeWhile (fun c => c != ':')
      let portRaw := (authority.dropWhile (fun c => c != ':')).drop 1
      if hostRaw = [] then none
      else if !portRaw.all Char.isDigit then none
      else
        let pathRaw := afterAuth.takeWhile (fun c => !isPathEnd c)
        let afterPath := afterAuth.dropWhile (fun c => !isPathEnd c)
        let searchRaw := afterPath.takeWhile (fun c => c != '#')
        let hashRaw := afterPath.dropWhile (fun c => c != '#')
        some {
          protocol := scheme ++ ":"
          hostname := (hostRaw.map Char.toLower).asString
          port := portRaw.asString
          pathname := if pathRaw = [] then "/" else pathRaw.asString
          search := if searchRaw = [] ∨ searchRaw = ['?'] then "" else searchRaw.asString
          hash := if hashRaw = [] ∨ hashRaw = ['#'] then "" else hashRaw.asString }
  | _ => none

def parseUrl (url : String) : Option URLParts :=
  let cs := url.data
  let pre := cs.takeWhile (fun c => c != ':')
  match cs.dropWhile (fun c => c != ':') with
  | [] => none
  | _ :: afterColon =>
    if !validSchemeChars pre then none
    else
      let scheme := (pre.map Char.toLower).asString
      if scheme == "http" || scheme == "https" then
        parseHttpRest scheme afterColon
      else
        some { protocol := scheme ++ ":", hostname := "", port := "",
               pathname := afterColon.asString, search := "", hash := "" }

/-! ### The platform URLSearchParams

Modelled from the platform: `URLSearchParams` as used by `normalizeUrl`
(`entries()` on a parsed query, `set(key, value)`, `toString()`, and the
`URL.search` setter).  The `application/x-www-form-urlencoded` percent
decoding is modelled bytewise (a `%XX` escape becomes the scalar value `XX`;
multi-byte UTF-8 recombination is not modelled), which is faithful for the
ASCII queries considered throughout. -/

def hexVal (c : Char) : Option Nat :=
  if '0' ≤ c ∧ c ≤ '9' then some (c.toNat - 48)
  else if 'a' ≤ c ∧ c ≤ 'f' then some (c.toNat - 87)
  else if 'A' ≤ c ∧ c ≤ 'F' then some (c.toNat - 55)
  else none

def formDecodeChars : List Char → List Char
  | [] => []
  | '+' :: rest => ' ' :: formDecodeChars rest
  | '%' :: h1 :: h2 :: rest =>
    match hexVal h1, hexVal h2 with
    | some a, some b => Char.ofNat (16 * a + b) :: formDecodeChars rest
    | _, _ => '%' :: formDecodeChars (h1 :: h2 :: rest)
  | c :: rest => c :: formDecodeChars rest

def isFormSafe (c : Char) : Bool :=
  c.isAlphanum || c == '*' || c == '-' || c == '.' || c == '_'

def hexDigitChar (n : Nat) : Char :=
  if n < 10 then Char.ofNat (48 + n) else Char.ofNat (55 + n)

def utf8BytesOf (c : Char) : List Nat :=
  let n := c.toNat
  if n < 128 then [n]
  else if n < 2048 then [192 + n / 64, 128 + n % 64]
  else if n < 65536 then [224 + n / 4096, 128 + (n / 64) % 64, 128 + n % 64]
  else [240 + n / 262144, 128 + (n / 4096) % 64, 128 + (n / 64) % 64, 128 + n % 64]

def formEncodeChars (cs : List Char) : List Char :=
  (cs.map fun c =>
    if c == ' ' then ['+']
    else if isFormSafe c then [c]
    else ((utf8BytesOf c).map fun b => ['%', hexDigitChar (b / 16), hexDigitChar (b % 16)]).flatten).flatten

def parsePiece (piece : List Char) : String × String :=
  let k := piece.takeWhile (fun c => c != '=')
  let rest := piece.dropWhile (fun c => c != '=')
  ((formDecodeChars k).asString, (formDecodeChars (rest.drop 1)).asString)

/-- The ordered (key, value) pairs of a `URL.search` string, as produced by
iterating `url.searchParams.entries()`. -/
def parseQueryEntries (search : String) : List (String × String) :=
  let q := match search.data with
    | '?' :: rest => rest
    | cs => cs
  ((splitAtChar '&' q).filter (fun p => p ≠ [])).map parsePiece

/-- Removing every pair with the given key. -/
def removeAllParams (k : String) (ps : List (String × String)) : List (String × String) :=
  ps.filter (fun p => p.1 ≠ k)

/-- The WHATWG `URLSearchParams.set`: if the key is present, the first
occurrence keeps its position and receives the new value and all later
occurrences are removed; otherwise the pair is appended at the end. -/
def setParam (k v : String) : List (String × String) → List (String × String)
  | [] => [(k, v)]
  | (k', v') :: rest =>
    if k' = k then (k, v) :: removeAllParams k rest
    else (k', v') :: setParam k v rest

/-- The WHATWG `URLSearchParams.toString` serializer. -/
def serializeParams (ps : List (String × String)) : String :=
  String.intercalate "&"
    (ps.map fun kv => (formEncodeChars kv.1.data).asString ++ "=" ++ (formEncodeChars kv.2.data).asString)

/-- Serialization composed with the `URL.search` setter: the empty pair list
gives the empty search, otherwise a leading "?" is added. -/
def serializeSearch (ps : List (String × String)) : String :=
  let s := serializeParams ps
  if s = "" then "" else "?" ++ s

/-! ### url-normalizer.ts -/

/-- The `TRACKING_PARAMS` denylist from url-normalizer.ts. -/
def TRACKING_PARAMS : List String := [
  "utm_source", "utm_medium", "utm_campaign", "utm_term", "utm_content",
  "utm_id", "utm_source_platform", "utm_creative_format", "utm_marketing_tactic",
  "fbclid", "fb_action_ids", "fb_action_types", "fb_source", "fb_ref",
  "twclid",
  "msclkid",
  "gclid", "gclsrc", "dclid",
  "mc_cid", "mc_eid",
  "hsa_acc", "hsa_cam", "hsa_grp", "hsa_ad", "hsa_src", "hsa_tgt",
  "hsa_kw", "hsa_mt", "hsa_net", "hsa_ver",
  "ref", "ref_src", "ref_url", "source", "referrer",
  "affiliate", "aff_id", "campaign_id",
  "sessionid", "session_id", "clickid", "click_id",
  "trk", "trkid", "share", "si", "s", "feature"]

/-- The optional-field option bag of url-normalizer.ts; a `none` field means
the field is absent and the default applies. -/
structure NormalizeOptions where
  stripTracking : Option Bool := none
  stripWww : Option Bool := none
  stripProtocol : Option Bool := none
  stripTrailingSlash : Option Bool := none
  stripHash : Option Bool := none
  lowercase : Option Bool := none
  sortParams : Option Bool := none
deriving Repr, DecidableEq

structure ResolvedOptions where
  stripTracking : Bool
  stripWww : Bool
  stripProtocol : Bool
  stripTrailingSlash : Bool
  stripHash : Bool
  lowercase : Bool
  sortParams : Bool
deriving Repr, DecidableEq

/-- The spread `{ ...DEFAULT_OPTIONS, ...options }`: every absent field takes
its default, and all defaults are `true`. -/
def resolveOptions (o : NormalizeOptions) : ResolvedOptions :=
  { stripTracking := o.stripTracking.getD true
    stripWww := o.stripWww.getD true
    stripProtocol := o.stripProtocol.getD true
    stripTrailingSlash := o.stripTrailingSlash.getD true
    stripHash := o.stripHash.getD true
    lowercase := o.lowercase.getD true
    sortParams := o.sortParams.getD true }

/-- The `hostname.replace(/^www\./, '')` step. -/
def stripWwwStr (s : String) : String :=
  if s.data.take 4 = ['w', 'w', 'w', '.'] then (s.data.drop 4).asString else s

/-- Ordinal (scalar-valuewise) lexicographic comparison of character lists. -/
def listCharLe : List Char → List Char → Bool
  | [], _ => true
  | _ :: _, [] => false
  | a :: as, b :: bs => if a < b then true else if b < a then false else listCharLe as bs

/-- Ordinal string comparison.  It models the key comparator
`a[0].localeCompare(b[0])` of the query-sorting step:
`localeCompare` is locale-sensitive in general, and is modelled here as plain
ordinal comparison, with which it agrees on the ASCII query keys this code
meets. -/
def strLe (a b : String) : Bool := listCharLe a.data b.data

/-- The query-canonicalization loop of `normalizeUrl`: optionally sort the
entries by key, then feed them through `URLSearchParams.set`, skipping
tracking parameters. -/
def canonicalizeParams (stripTracking sortP : Bool) (entries : List (String × String)) :
    List (String × String) :=
  let es :=
    if sortP then List.insertionSort (fun a b => strLe a.1 b.1 = true) entries else entries
  es.foldl (fun ps kv =>
    if stripTracking && TRACKING_PARAMS.contains (toLowerStr kv.1) then ps
    else setParam kv.1 kv.2 ps) []

/-- The assembly stage of `normalizeUrl` on an already parsed http(s) URL. -/
def normalizeUrlCore (parsed : URLParts) (opts : ResolvedOptions) : String :=
  let hostname := if opts.stripWww then stripWwwStr parsed.hostname else parsed.hostname
  let hostname := if opts.lowercase then toLowerStr hostname else hostname
  let search :=
    if opts.stripTracking || opts.sortParams then
      serializeSearch (canonicalizeParams opts.stripTracking opts.sortParams
        (parseQueryEntries parsed.search))
    else parsed.search
  let normalized := (if !opts.stripProtocol then "https://" else "") ++ hostname ++ parsed.pathname
  let normalized :=
    if opts.stripTrailingSlash ∧ normalized.data.getLast? = some '/' ∧ 1 < normalized.data.length
    then normalized.data.dropLast.asString else normalized
  let normalized := normalized ++ search
  if !opts.stripHash ∧ parsed.hash ≠ "" then normalized ++ parsed.hash else normalized

/-- `normalizeUrl` from url-normalizer.ts. -/
def normalizeUrl (url : String) (options : NormalizeOptions := {}) : String :=
  let opts := resolveOptions options
  match parseUrl url with
  | none => url
  | some parsed =>
    if !(parsed.protocol == "http:" || parsed.protocol == "https:") then url
    else normalizeUrlCore parsed opts

/-- `getDomain` from url-normalizer.ts. -/
def getDomain (url : String) : String :=
  match parseUrl url with
  | some parsed => toLowerStr (stripWwwStr parsed.hostname)
  | none => url

/-- `isInternalUrl` from url-normalizer.ts. -/
def isInternalUrl (url : String) : Bool :=
  match parseUrl url with
  | some parsed => ["chrome:", "chrome-extension:", "edge:", "about:", "file:"].contains parsed.protocol
  | none => false

/-- `isValidHttpUrl` from url-normalizer.ts. -/
def isValidHttpUrl (url : String) : Bool :=
  match parseUrl url with
  | some parsed => ["http:", "https:"].contains parsed.protocol
  | none => false

/-! ### Domain records (types/domain.ts) -/

structure TabInfo where
  id : Int
  windowId : Int := 0
  index : Int := 0
  url : String
  title : String := ""
  favIconUrl : Option String := none
  pinned : Bool := false
  groupId : Int := 0
  active : Bool := false
  discarded : Bool := false
deriving Repr, DecidableEq

structure BookmarkNode where
  id : String
  parentId : Option String := none
  index : Option Int := none
  title : String := ""
  url : Option String := none
  dateAdded : Option Int := none
deriving Repr, DecidableEq

structure DuplicateGroup where
  normalizedUrl : String
  tabs : List TabInfo
deriving Repr, DecidableEq

structure BookmarkDuplicateGroup where
  normalizedUrl : String
  bookmarks : List BookmarkNode
deriving Repr, DecidableEq

/-! ### duplicate-detector.ts

A JavaScript `Map` is modelled as an association list in insertion order:
`map.set` on a fresh key appends at the end, pushing onto an existing key
updates that entry in place, and `Array.from(map.entries())` is the identity.
`Array.prototype.sort` (stable since ES2019) with an ascending comparator is
modelled by Mathlib's stable `List.insertionSort`. -/

/-- One step of `groups.get(key)` / `existing.push` / `groups.set(key, [x])`. -/
def insertGroup {α : Type} (k : String) (t : α) :
    List (String × List α) → List (String × List α)
  | [] => [(k, [t])]
  | (k', ts) :: rest =>
    if k' = k then (k', ts ++ [t]) :: rest else (k', ts) :: insertGroup k t rest

/-- `findDuplicateTabs` from duplicate-detector.ts. -/
def findDuplicateTabs (tabs : List TabInfo) : List DuplicateGroup :=
  let groups := tabs.foldl (fun gs tab =>
    if isInternalUrl tab.url then gs
    else insertGroup (normalizeUrl tab.url) tab gs) []
  (groups.filter fun g => 1 < g.2.length).map fun g =>
    { normalizedUrl := g.1, tabs := List.insertionSort (fun a b => a.id ≤ b.id) g.2 }

/-- `findDuplicateBookmarks` from duplicate-detector.ts.  The guard
`if (!bookmark.url) continue` skips both an absent and an empty url. -/
def findDuplicateBookmarks (bookmarks : List BookmarkNode) : List BookmarkDuplicateGroup :=
  let groups := bookmarks.foldl (fun gs bookmark =>
    match bookmark.url with
    | none => gs
    | some u => if u = "" then gs else insertGroup (normalizeUrl u) bookmark gs) []
  (groups.filter fun g => 1 < g.2.length).map fun g =>
    { normalizedUrl := g.1,
      bookmarks := List.insertionSort (fun a b => a.dateAdded.getD 0 ≤ b.dateAdded.getD 0) g.2 }

/-- The non-empty path segments of a pathname: `pathname.split('/').filter(Boolean)`. -/
def pathSegments (pathname : String) : List String :=
  ((splitAtChar '/' pathname.data).filter (fun p => p ≠ [])).map List.asString

/-- `areSimilarUrls` from duplicate-detector.ts.  The similarity threshold is a
JavaScript number; it is modelled as an exact rational, and the quotient
`matches / maxLen` as the rational `mkRat matches maxLen` (the same value, in
a kernel-computable form).  `path1[i] === path2[i]` on an index at most
`maxLen - 1` compares an out-of-range access as `undefined`, modelled by
`Option` equality. -/
def areSimilarUrls (url1 url2 : String) (threshold : ℚ) : Bool :=
  match parseUrl url1, parseUrl url2 with
  | some parsed1, some parsed2 =>
    if parsed1.hostname ≠ parsed2.hostname then false
    else
      let path1 := pathSegments parsed1.pathname
      let path2 := pathSegments parsed2.pathname
      if 1 < ((path1.length : Int) - (path2.length : Int)).natAbs then false
      else
        let maxLen := max path1.length path2.length
        if maxLen = 0 then true
        else
          let matchCount := (List.range maxLen).countP (fun i => path1[i]? == path2[i]?)
          decide (threshold ≤ mkRat (matchCount : Int) maxLen)
  | _, _ => false

/-- The inner loop of `findNearDuplicateTabs`: try each cluster in order, join
the first whose representative (`cluster[0]`) is similar, else open a new
singleton cluster at the end. -/
def addToClusters (threshold : ℚ) (tab : TabInfo) :
    List (List TabInfo) → List (List TabInfo)
  | [] => [[tab]]
  | cluster :: rest =>
    match cluster.head? with
    | some representative =>
      if areSimilarUrls tab.url representative.url threshold then
        (cluster ++ [tab]) :: rest
      else cluster :: addToClusters threshold tab rest
    | none => cluster :: addToClusters threshold tab rest

/-- `findNearDuplicateTabs` from duplicate-detector.ts. -/
def findNearDuplicateTabs (tabs : List TabInfo) (similarityThreshold : ℚ := mkRat 4 5) :
    List DuplicateGroup :=
  let domainGroups := tabs.foldl (fun gs tab =>
    if isInternalUrl tab.url then gs
    else insertGroup (getDomain tab.url) tab gs) []
  domainGroups.foldl (fun nearDuplicates dg =>
    if dg.2.length < 2 then nearDuplicates
    else
      let clusters := dg.2.foldl (fun cls tab => addToClusters similarityThreshold tab cls) []
      nearDuplicates ++ (clusters.filter fun c => 1 < c.length).map fun c =>
        { normalizedUrl := normalizeUrl ((c.head?.map TabInfo.url).getD "")
          tabs := c }) []

/-- `getDuplicateTabsToRemove` from duplicate-detector.ts: the index loop
`for (let i = 1; i < group.tabs.length; i++)` with the in-range/pinned guard. -/
def getDuplicateTabsToRemove (groups : List DuplicateGroup) : List Int :=
  groups.foldl (fun toRemove group =>
    (List.range group.tabs.length).foldl (fun acc i =>
      if 1 ≤ i then
        match group.tabs[i]? with
        | some tab => if !tab.pinned then acc ++ [tab.id] else acc
        | none => acc
      else acc) toRemove) []

/-! ### token-estimator.ts

The `1.3` tokens-per-word factor is a JavaScript double; `ceil(words * 1.3)`
is modelled by exact rational arithmetic as `(13 * words + 9) / 10`.  (The
double evaluation can exceed the exact product by one unit in the last place
on some inputs; none of the claims depend on the constant's exact value.) -/

/-- The characters the model treats as whitespace for `split(/\s+/)`. -/
def isJsWs (c : Char) : Bool :=
  c == ' ' || c == '\t' || c == '\n' || c == '\r' || c == '\x0b' || c == '\x0c'

def countWordsAux : List Char → Bool → Nat
  | [], _ => 0
  | c :: cs, inWord =>
    if isJsWs c then countWordsAux cs false
    else (if inWord then 0 else 1) + countWordsAux cs true

/-- The value of `text.split(/\s+/).filter(Boolean).length`: the number of
maximal non-whitespace runs. -/
def countWords (cs : List Char) : Nat := countWordsAux cs false

/-- `estimateTokens` from token-estimator.ts. -/
def estimateTokens (text : String) : Nat :=
  if text = "" then 0
  else
    let words := countWords text.data
    let chars := text.data.length
    let byWords := (13 * words + 9) / 10
    let byChars := (chars + 3) / 4
    max byWords byChars

/-- `estimateTabTokens` from token-estimator.ts. -/
def estimateTabTokens (url title : String) : Nat :=
  estimateTokens url + estimateTokens title + 10

/-- The `T extends { url: string; title: string }` constraint of
`splitIntoBatches`. -/
class HasUrlTitle (T : Type) where
  url : T → String
  title : T → String

structure TextItem where
  url : String
  title : String
deriving Repr, DecidableEq

instance : HasUrlTitle TextItem := ⟨TextItem.url, TextItem.title⟩

instance : HasUrlTitle TabInfo := ⟨TabInfo.url, TabInfo.title⟩

/-- The per-item cost `estimateTabTokens(item.url, item.title) + 10` used by
the batching loop. -/
def itemCost {T : Type} [HasUrlTitle T] (item : T) : Int :=
  (estimateTabTokens (HasUrlTitle.url item) (HasUrlTitle.title item) : Int) + 10

/-- The cumulative estimated cost of a batch. -/
def batchCost {T : Type} [HasUrlTitle T] (b : List T) : Int := (b.map itemCost).sum

/-- One iteration of the batching loop on the state
`(batches, currentBatch, currentTokens)`: flush the current batch when adding
the item would overflow the budget and the current batch is non-empty, then
push the item. -/
def splitStep {T : Type} [HasUrlTitle T] (availableTokens : Int)
    (st : List (List T) × List T × Int) (item : T) : List (List T) × List T × Int :=
  if availableTokens < st.2.2 + itemCost item ∧ st.2.1.isEmpty = false then
    (st.1 ++ [st.2.1], [item], itemCost item)
  else
    (st.1, st.2.1 ++ [item], st.2.2 + itemCost item)

/-- `splitIntoBatches` from token-estimator.ts. -/
def splitIntoBatches {T : Type} [HasUrlTitle T] (items : List T)
    (maxContextTokens : Int) (reservedTokens : Int := 2500) : List (List T) :=
  let availableTokens := maxContextTokens - reservedTokens
  let fin := items.foldl (splitStep availableTokens) ([], [], 0)
  if fin.2.1.isEmpty = false then fin.1 ++ [fin.2.1] else fin.1

/-! ### retry.ts

The retry loop is modelled as a pure recursion.  The operation is a function
from the (0-based) attempt number to a result, failure being `Except.error`;
the backoff sleep and the `onRetry` observer do not affect the returned value
or the number of invocations and are omitted.  The model returns the final
outcome together with how many times the operation was invoked. -/

structure RetryOptions (ε : Type) where
  maxRetries : Option Nat := none
  initialDelay : Option Nat := none
  maxDelay : Option Nat := none
  backoffMultiplier : Option Nat := none
  shouldRetry : Option (ε → Bool) := none

/-- The exponential-backoff delay computed (and slept) before retry number
`attempt + 1`; recorded for completeness, it does not influence results. -/
def retryDelay {ε : Type} (options : RetryOptions ε) (attempt : Nat) : Nat :=
  min (options.initialDelay.getD 1000 * (options.backoffMultiplier.getD 2) ^ attempt)
    (options.maxDelay.getD 8000)

def retryAux {ε α : Type} (fn : Nat → Except ε α) (shouldRetry : Option (ε → Bool))
    (maxRetries : Nat) (attempt calls : Nat) : Except ε α × Nat :=
  match fn attempt with
  | .ok v => (.ok v, calls + 1)
  | .error e =>
    if (match shouldRetry with | some p => !p e | none => false) then (.error e, calls + 1)
    else if maxRetries ≤ attempt then (.error e, calls + 1)
    else retryAux fn shouldRetry maxRetries (attempt + 1) (calls + 1)
termination_by maxRetries + 1 - attempt
decreasing_by omega

/-- `retry` from retry.ts, with the attempt counter made explicit. -/
def retry {ε α : Type} (fn : Nat → Except ε α) (options : RetryOptions ε := {}) :
    Except ε α × Nat :=
  retryAux fn options.shouldRetry (options.maxRetries.getD 3) 0 0

/-- The raw hostname a URL parses to, if it parses at all. -/
def hostnameOf (url : String) : Option String :=
  (parseUrl url).map URLParts.hostname

/-- The path-similarity predicate as the specification words it: equal
hostnames, segment counts differing by at most one, and either no segments on
both sides or at least a `threshold` fraction of index-aligned identical
segments relative to the larger count. -/
def specPathSimilar (parsed1 parsed2 : URLParts) (threshold : ℚ) : Prop :=
  let path1 := pathSegments parsed1.pathname
  let path2 := pathSegments parsed2.pathname
  parsed1.hostname = parsed2.hostname ∧
  ((path1.length : Int) - (path2.length : Int)).natAbs ≤ 1 ∧
  ((path1.length = 0 ∧ path2.length = 0) ∨
    threshold ≤ ((((path1.zip path2).filter fun q => q.1 = q.2).length : ℚ) /
      (max path1.length path2.length : ℚ)))

/-- The invariant of the greedy clustering: a cluster is its representative
(first member) followed by members that were each found similar to that
representative. -/
def ClusterProp (threshold : ℚ) (c : List TabInfo) : Prop :=
  ∃ r rest, c = r :: rest ∧ ∀ t ∈ rest, areSimilarUrls t.url r.url threshold = true

/-! ## Helper lemmas -/

theorem foldl_append_of_branch {α β : Type} (f : β → List α) (l : List β)
    (step : List α → β → List α) (hstep : ∀ acc b, step acc b = acc ++ f b) (init : List α) :
    l.foldl step init = init ++ (l.map f).flatten := by
  induction l generalizing init with
  | nil => simp
  | cons b bs ih => rw [List.foldl_cons, hstep, ih, List.map_cons, List.flatten_cons,
      List.append_assoc]

theorem mem_foldl_append {α β : Type} (f : β → List α) (l : List β)
    (step : List α → β → List α) (hstep : ∀ acc b, step acc b = acc ++ f b) (init : List α)
    (x : α) : x ∈ l.foldl step init ↔ x ∈ init ∨ ∃ b ∈ l, x ∈ f b := by
  rw [foldl_append_of_branch f l step hstep init]
  simp

theorem retryAux_all_fail {ε α : Type} (fn : Nat → Except ε α) (errs : Nat → ε)
    (h : ∀ k, fn k = Except.error (errs k)) (m : Nat) :
    ∀ d a c, a ≤ m → m - a = d →
      retryAux fn none m a c = (Except.error (errs m), c + d + 1) := by
  intro d
  induction d with
  | zero =>
    intro a c ha hd
    have ham : a = m := by omega
    subst ham
    unfold retryAux
    rw [h a]
    simp
  | succ n ih =>
    intro a c ha hd
    unfold retryAux
    rw [h a]
    simp only
    rw [if_neg (by simp), if_neg (by omega)]
    rw [ih (a + 1) (c + 1) (by omega) (by omega)]
    have : c + 1 + n + 1 = c + (n + 1) + 1 := by omega
    rw [this]

theorem foldl_range_getElem_filter (rest : List TabInfo) (acc : List Int) :
    (List.range rest.length).foldl (fun acc i =>
      match rest[i]? with
      | some tab => if !tab.pinned then acc ++ [tab.id] else acc
      | none => acc) acc
    = acc ++ (rest.filter (fun t => !t.pinned)).map (fun t => t.id) := by
  induction rest generalizing acc with
  | nil => simp
  | cons t ts ih =>
    rw [List.length_cons, List.range_succ_eq_map, List.foldl_cons, List.foldl_map]
    simp only [List.getElem?_cons_zero, List.getElem?_cons_succ]
    rw [ih]
    cases hp : t.pinned <;> simp [List.filter_cons, hp]

theorem foldl_range_collect (tabs : List TabInfo) (acc : List Int) :
    (List.range tabs.length).foldl (fun acc i =>
      if 1 ≤ i then
        match tabs[i]? with
        | some tab => if !tab.pinned then acc ++ [tab.id] else acc
        | none => acc
      else acc) acc
    = acc ++ ((tabs.drop 1).filter (fun t => !t.pinned)).map (fun t => t.id) := by
  cases tabs with
  | nil => simp
  | cons t ts =>
    rw [List.length_cons, List.range_succ_eq_map, List.foldl_cons, List.foldl_map]
    rw [if_neg (by omega)]
    have hbody : (fun (acc : List Int) (i : Nat) =>
        if 1 ≤ i + 1 then
          match (t :: ts)[i + 1]? with
          | some tab => if !tab.pinned then acc ++ [tab.id] else acc
          | none => acc
        else acc)
      = fun (acc : List Int) (i : Nat) =>
          match ts[i]? with
          | some tab => if !tab.pinned then acc ++ [tab.id] else acc
          | none => acc := by
      funext acc i
      rw [if_pos (by omega), List.getElem?_cons_succ]
    rw [hbody, foldl_range_getElem_filter]
    simp

/-! ## Claim C9: retry attempt counts -/

/-- C9: with the default `maxRetries = 3` and an operation failing on every
attempt, `retry` invokes the operation exactly 4 times and rethrows the last
error unmodified; with a `shouldRetry` predicate rejecting the first error,
the operation is invoked exactly once and that error is rethrown. -/
theorem claim9_retry_attempts :
    (∀ (ε α : Type) (fn : Nat → Except ε α) (errs : Nat → ε),
      (∀ k, fn k = Except.error (errs k)) →
      retry fn {} = (Except.error (errs 3), 4)) ∧
    (∀ (ε α : Type) (fn : Nat → Except ε α) (p : ε → Bool) (e : ε),
      fn 0 = Except.error e → p e = false →
      retry fn { shouldRetry := some p } = (Except.error e, 1)) := by
  constructor
  · intro ε α fn errs h
    show retryAux fn none 3 0 0 = _
    rw [retryAux_all_fail fn errs h 3 3 0 0 (by omega) (by omega)]
  · intro ε α fn p e hf hp
    show retryAux fn (some p) 3 0 0 = _
    unfold retryAux
    rw [hf]
    simp [hp]

theorem claim9_witness :
    retry (fun k => (Except.error k : Except Nat Nat)) {} = (Except.error 3, 4) ∧
    retry (fun k => (Except.error k : Except Nat Nat))
      { shouldRetry := some (fun x => false) } = (Except.error 0, 1) :=
  ⟨claim9_retry_attempts.1 Nat Nat _ (fun k => k) (fun _ => rfl),
   claim9_retry_attempts.2 Nat Nat _ (fun _ => false) 0 rfl rfl⟩

/-! ## Claim C3: removal candidates -/

/-- C3: `getDuplicateTabsToRemove` returns exactly the ids of each group's
members after the first that are not pinned; every returned id comes from a
non-pinned member strictly after the first of its group. -/
theorem claim3_removal_candidates (groups : List DuplicateGroup) :
    getDuplicateTabsToRemove groups
      = (groups.map (fun g =>
          ((g.tabs.drop 1).filter (fun t => !t.pinned)).map (fun t => t.id))).flatten ∧
    ∀ n ∈ getDuplicateTabsToRemove groups,
      ∃ g ∈ groups, ∃ t ∈ g.tabs.drop 1, t.pinned = false ∧ t.id = n := by
  have heq : getDuplicateTabsToRemove groups
      = (groups.map (fun g =>
          ((g.tabs.drop 1).filter (fun t => !t.pinned)).map (fun t => t.id))).flatten := by
    unfold getDuplicateTabsToRemove
    rw [foldl_append_of_branch
      (fun g => ((g.tabs.drop 1).filter (fun t => !t.pinned)).map (fun t => t.id))
      groups _ (fun acc g => foldl_range_collect g.tabs acc) []]
    simp
  refine ⟨heq, ?_⟩
  intro n hn
  rw [heq] at hn
  simp only [List.mem_flatten, List.mem_map] at hn
  obtain ⟨l, ⟨g, hg, rfl⟩, hnl⟩ := hn
  simp only [List.mem_map, List.mem_filter] at hnl
  obtain ⟨t, ⟨ht, hpin⟩, rfl⟩ := hnl
  exact ⟨g, hg, t, ht, by simpa using hpin, rfl⟩

theorem claim3_witness :
    ∃ g ∈ [DuplicateGroup.mk "u"
        [{ id := 1, url := "u" }, { id := 2, url := "u", pinned := true },
         { id := 3, url := "u" }]],
      ∃ t ∈ g.tabs.drop 1, t.pinned = false ∧ t.id = 3 :=
  (claim3_removal_candidates
    [DuplicateGroup.mk "u"
      [{ id := 1, url := "u" }, { id := 2, url := "u", pinned := true },
       { id := 3, url := "u" }]]).2 3 (by decide)

/-! ## Claim C2: token-budget batching -/

theorem itemCost_nonneg {T : Type} [HasUrlTitle T] (item : T) : 0 ≤ itemCost item :=
  add_nonneg (Int.natCast_nonneg _) (by norm_num)

theorem batchCost_append {T : Type} [HasUrlTitle T] (a b : List T) :
    batchCost (a ++ b) = batchCost a + batchCost b := by
  simp [batchCost]

theorem oversized_alone {T : Type} [HasUrlTitle T] (avail : Int) (b : List T) (hne : b ≠ [])
    (hb : 2 ≤ b.length → batchCost b ≤ avail) (x : T) (hx : x ∈ b)
    (hover : avail < itemCost x) : b = [x] := by
  match b with
  | [] => exact absurd rfl hne
  | [y] => rw [List.mem_singleton.mp hx]
  | y :: z :: zs =>
    exfalso
    have hlen : 2 ≤ (y :: z :: zs).length := by simp
    have hcost : itemCost x ≤ batchCost (y :: z :: zs) :=
      List.single_le_sum (l := (y :: z :: zs).map itemCost)
        (by intro v hv; obtain ⟨w, _, rfl⟩ := List.mem_map.mp hv; exact itemCost_nonneg w)
        (itemCost x) (List.mem_map.mpr ⟨x, hx, rfl⟩)
    have := hb hlen
    omega

theorem split_fold_invariant {T : Type} [HasUrlTitle T] (avail : Int) (items : List T) :
    ∀ (batches : List (List T)) (cur : List T) (tok : Int),
      (∀ b ∈ batches, b ≠ [] ∧ (2 ≤ b.length → batchCost b ≤ avail)) →
      tok = batchCost cur →
      (2 ≤ cur.length → tok ≤ avail) →
      (∀ b ∈ (items.foldl (splitStep avail) (batches, cur, tok)).1,
          b ≠ [] ∧ (2 ≤ b.length → batchCost b ≤ avail)) ∧
        (items.foldl (splitStep avail) (batches, cur, tok)).2.2
          = batchCost (items.foldl (splitStep avail) (batches, cur, tok)).2.1 ∧
        (2 ≤ (items.foldl (splitStep avail) (batches, cur, tok)).2.1.length →
          (items.foldl (splitStep avail) (batches, cur, tok)).2.2 ≤ avail) ∧
        (items.foldl (splitStep avail) (batches, cur, tok)).1.flatten
            ++ (items.foldl (splitStep avail) (batches, cur, tok)).2.1
          = batches.flatten ++ cur ++ items ∧
        ((cur ≠ [] ∨ items ≠ []) →
          (items.foldl (splitStep avail) (batches, cur, tok)).2.1 ≠ []) := by
  induction items with
  | nil =>
    intro batches cur tok hP htok hbound
    refine ⟨hP, htok, hbound, by simp, ?_⟩
    intro h
    rcases h with h | h
    · simpa using h
    · exact absurd rfl h
  | cons item rest ih =>
    intro batches cur tok hP htok hbound
    rw [List.foldl_cons]
    by_cases hc : avail < tok + itemCost item ∧ cur.isEmpty = false
    · have hstep : splitStep avail (batches, cur, tok) item
          = (batches ++ [cur], [item], itemCost item) := by
        unfold splitStep
        rw [if_pos hc]
      rw [hstep]
      have hcur_ne : cur ≠ [] := by
        intro h
        rw [h] at hc
        simp at hc
      obtain ⟨inv1, inv2, inv3, inv4, inv5⟩ := ih (batches ++ [cur]) [item] (itemCost item)
        (by
          intro b hb
          rcases List.mem_append.mp hb with h | h
          · exact hP b h
          · rw [List.mem_singleton.mp h]
            exact ⟨hcur_ne, fun h2 => htok ▸ hbound h2⟩)
        (by simp [batchCost])
        (by intro h; simp at h)
      refine ⟨inv1, inv2, inv3, ?_, fun _ => inv5 (Or.inl (by simp))⟩
      rw [inv4]
      simp
    · have hstep : splitStep avail (batches, cur, tok) item
          = (batches, cur ++ [item], tok + itemCost item) := by
        unfold splitStep
        rw [if_neg hc]
      rw [hstep]
      obtain ⟨inv1, inv2, inv3, inv4, inv5⟩ := ih batches (cur ++ [item]) (tok + itemCost item)
        hP
        (by rw [batchCost_append, htok]; simp [batchCost])
        (by
          intro hlen
          by_cases hcur : cur = []
          · subst hcur
            simp at hlen
          · rcases not_and_or.mp hc with h | h
            · omega
            · exact absurd (by simpa using hcur) h)
      refine ⟨inv1, inv2, inv3, ?_, fun _ => inv5 (Or.inl (by simp))⟩
      rw [inv4]
      simp

/-- C2: the batches of `splitIntoBatches` concatenate back to the input, a
non-empty input yields at least one batch, every batch is non-empty, every
batch of two or more items fits the budget `maxContextTokens - reservedTokens`,
and an item costing more than the budget sits alone in its batch (it is never
dropped). -/
theorem claim2_splitIntoBatches {T : Type} [HasUrlTitle T] (items : List T)
    (maxContextTokens reservedTokens : Int) :
    (splitIntoBatches items maxContextTokens reservedTokens).flatten = items ∧
    (items ≠ [] → splitIntoBatches items maxContextTokens reservedTokens ≠ []) ∧
    ∀ b ∈ splitIntoBatches items maxContextTokens reservedTokens,
      b ≠ [] ∧
      (2 ≤ b.length → batchCost b ≤ maxContextTokens - reservedTokens) ∧
      ∀ x ∈ b, maxContextTokens - reservedTokens < itemCost x → b = [x] := by
  obtain ⟨inv1, inv2, inv3, inv4, inv5⟩ :=
    split_fold_invariant (maxContextTokens - reservedTokens) items [] [] 0
      (by simp) (by simp [batchCost]) (by intro h; simp at h)
  have heq : splitIntoBatches items maxContextTokens reservedTokens
      = if (items.foldl (splitStep (maxContextTokens - reservedTokens)) ([], [], 0)).2.1.isEmpty
            = false
        then (items.foldl (splitStep (maxContextTokens - reservedTokens)) ([], [], 0)).1
          ++ [(items.foldl (splitStep (maxContextTokens - reservedTokens)) ([], [], 0)).2.1]
        else (items.foldl (splitStep (maxContextTokens - reservedTokens)) ([], [], 0)).1 := rfl
  simp only [List.flatten_nil, List.nil_append] at inv4
  refine ⟨?_, ?_, ?_⟩
  · by_cases hem : (items.foldl (splitStep (maxContextTokens - reservedTokens)) ([], [], 0)).2.1.isEmpty = false
    · rw [heq, if_pos hem]
      rw [List.flatten_append]
      simpa using inv4
    · rw [heq, if_neg hem]
      have hnil : (items.foldl (splitStep (maxContextTokens - reservedTokens)) ([], [], 0)).2.1 = [] := by
        simpa using hem
      rw [hnil, List.append_nil] at inv4
      exact inv4
  · intro hne
    have hcur := inv5 (Or.inr hne)
    have hem : (items.foldl (splitStep (maxContextTokens - reservedTokens)) ([], [], 0)).2.1.isEmpty = false := by
      simpa using hcur
    rw [heq, if_pos hem]
    simp
  · intro b hb
    rw [heq] at hb
    have hmain : b ≠ [] ∧ (2 ≤ b.length → batchCost b ≤ maxContextTokens - reservedTokens) := by
      by_cases hem : (items.foldl (splitStep (maxContextTokens - reservedTokens)) ([], [], 0)).2.1.isEmpty = false
      · rw [if_pos hem] at hb
        rcases List.mem_append.mp hb with h | h
        · exact inv1 b h
        · rw [List.mem_singleton.mp h]
          refine ⟨by simpa using hem, ?_⟩
          intro h2
          rw [← inv2]
          exact inv3 h2
      · rw [if_neg hem] at hb
        exact inv1 b hb
    exact ⟨hmain.1, hmain.2, fun x hx hover =>
      oversized_alone (maxContextTokens - reservedTokens) b hmain.1 hmain.2 x hx hover⟩

theorem claim2_witness :
    splitIntoBatches
      [TextItem.mk "https://a.com/xyz" "hello world", TextItem.mk "https://b.com" "t"]
      2540 2500 ≠ [] ∧
    [TextItem.mk "https://a.com/xyz" "hello world"] ≠ [] :=
  ⟨(claim2_splitIntoBatches
      [TextItem.mk "https://a.com/xyz" "hello world", TextItem.mk "https://b.com" "t"]
      2540 2500).2.1 (by decide),
   ((claim2_splitIntoBatches
      [TextItem.mk "https://a.com/xyz" "hello world", TextItem.mk "https://b.com" "t"]
      2540 2500).2.2 [TextItem.mk "https://a.com/xyz" "hello world"] (by decide)).1⟩

/-! ## Grouping invariants (claims C1 and C8) -/

theorem insertGroup_inv {α : Type} (Q : α → Prop) (key : α → String)
    (gs : List (String × List α)) (k : String) (t : α)
    (hgs : ∀ p ∈ gs, p.2 ≠ [] ∧ ∀ x ∈ p.2, Q x ∧ key x = p.1)
    (hQ : Q t) (hk : key t = k) :
    ∀ p ∈ insertGroup k t gs, p.2 ≠ [] ∧ ∀ x ∈ p.2, Q x ∧ key x = p.1 := by
  induction gs with
  | nil =>
    intro p hp
    simp only [insertGroup, List.mem_singleton] at hp
    subst hp
    exact ⟨by simp, by intro x hx; rw [List.mem_singleton.mp hx]; exact ⟨hQ, hk⟩⟩
  | cons g rest ih =>
    obtain ⟨k', ts⟩ := g
    intro p hp
    simp only [insertGroup] at hp
    by_cases hkk : k' = k
    · rw [if_pos hkk] at hp
      rcases List.mem_cons.mp hp with h | h
      · subst h
        refine ⟨by simp, ?_⟩
        intro x hx
        rcases List.mem_append.mp hx with h | h
        · exact (hgs (k', ts) (List.mem_cons_self _ _)).2 x h
        · rw [List.mem_singleton.mp h]
          exact ⟨hQ, by rw [hk, hkk]⟩
      · exact hgs p (List.mem_cons_of_mem _ h)
    · rw [if_neg hkk] at hp
      rcases List.mem_cons.mp hp with h | h
      · subst h
        exact hgs (k', ts) (List.mem_cons_self _ _)
      · exact ih (fun q hq => hgs q (List.mem_cons_of_mem _ hq)) p h

theorem fold_insertGroup_inv {α : Type} (Q : α → Prop) (key : α → String)
    (step : List (String × List α) → α → List (String × List α))
    (hstep : ∀ gs x, step gs x = gs ∨ (Q x ∧ step gs x = insertGroup (key x) x gs))
    (l : List α) :
    ∀ gs, (∀ p ∈ gs, p.2 ≠ [] ∧ ∀ x ∈ p.2, Q x ∧ key x = p.1) →
      ∀ p ∈ l.foldl step gs, p.2 ≠ [] ∧ ∀ x ∈ p.2, Q x ∧ key x = p.1 := by
  induction l with
  | nil => exact fun gs h => h
  | cons a as ih =>
    intro gs h
    rw [List.foldl_cons]
    rcases hstep gs a with hs | ⟨hQ, hs⟩
    · rw [hs]
      exact ih gs h
    · rw [hs]
      exact ih _ (insertGroup_inv Q key gs (key a) a h hQ rfl)

theorem findDuplicateTabs_member_inv (tabs : List TabInfo) :
    ∀ g ∈ findDuplicateTabs tabs,
      2 ≤ g.tabs.length ∧
      List.Sorted (fun a b : TabInfo => a.id ≤ b.id) g.tabs ∧
      ∀ t ∈ g.tabs,
        isInternalUrl t.url = false ∧ normalizeUrl t.url = g.normalizedUrl := by
  intro g hg
  simp only [findDuplicateTabs] at hg
  rw [List.mem_map] at hg
  obtain ⟨p, hpfil, rfl⟩ := hg
  rw [List.mem_filter] at hpfil
  obtain ⟨hpmem, hplen⟩ := hpfil
  have hinv := fold_insertGroup_inv
    (fun t : TabInfo => isInternalUrl t.url = false)
    (fun t : TabInfo => normalizeUrl t.url)
    (fun gs tab => if isInternalUrl tab.url then gs else insertGroup (normalizeUrl tab.url) tab gs)
    (by
      intro gs x
      by_cases hx : isInternalUrl x.url
      · exact Or.inl (if_pos hx)
      · exact Or.inr ⟨by simpa using hx, if_neg hx⟩)
    tabs [] (by simp) p hpmem
  have hperm := List.perm_insertionSort (fun a b : TabInfo => a.id ≤ b.id) p.2
  refine ⟨?_, ?_, ?_⟩
  · rw [hperm.length_eq]
    simpa using hplen
  · haveI : IsTotal TabInfo (fun a b : TabInfo => a.id ≤ b.id) :=
      ⟨fun a b => le_total a.id b.id⟩
    haveI : IsTrans TabInfo (fun a b : TabInfo => a.id ≤ b.id) :=
      ⟨fun _ _ _ hab hbc => le_trans hab hbc⟩
    exact List.sorted_insertionSort _ p.2
  · intro t ht
    exact hinv.2 t (hperm.mem_iff.mp ht)

theorem findDuplicateBookmarks_member_inv (bookmarks : List BookmarkNode) :
    ∀ g ∈ findDuplicateBookmarks bookmarks,
      2 ≤ g.bookmarks.length ∧
      List.Sorted (fun a b : BookmarkNode => a.dateAdded.getD 0 ≤ b.dateAdded.getD 0)
        g.bookmarks ∧
      ∀ b ∈ g.bookmarks, ∃ u, b.url = some u ∧ u ≠ "" ∧ normalizeUrl u = g.normalizedUrl := by
  intro g hg
  simp only [findDuplicateBookmarks] at hg
  rw [List.mem_map] at hg
  obtain ⟨p, hpfil, rfl⟩ := hg
  rw [List.mem_filter] at hpfil
  obtain ⟨hpmem, hplen⟩ := hpfil
  have hinv := fold_insertGroup_inv
    (fun b : BookmarkNode => ∃ u, b.url = some u ∧ u ≠ "")
    (fun b : BookmarkNode => normalizeUrl (b.url.getD ""))
    (fun gs bookmark =>
      match bookmark.url with
      | none => gs
      | some u => if u = "" then gs else insertGroup (normalizeUrl u) bookmark gs)
    (by
      intro gs x
      cases hx : x.url with
      | none => exact Or.inl (by simp [hx])
      | some u =>
        by_cases hu : u = ""
        · exact Or.inl (by simp [hx, hu])
        · exact Or.inr ⟨⟨u, hx, hu⟩, by simp [hx, hu]⟩)
    bookmarks [] (by simp) p hpmem
  have hperm := List.perm_insertionSort
    (fun a b : BookmarkNode => a.dateAdded.getD 0 ≤ b.dateAdded.getD 0) p.2
  refine ⟨?_, ?_, ?_⟩
  · rw [hperm.length_eq]
    simpa using hplen
  · haveI : IsTotal BookmarkNode
        (fun a b : BookmarkNode => a.dateAdded.getD 0 ≤ b.dateAdded.getD 0) :=
      ⟨fun a b => le_total _ _⟩
    haveI : IsTrans BookmarkNode
        (fun a b : BookmarkNode => a.dateAdded.getD 0 ≤ b.dateAdded.getD 0) :=
      ⟨fun _ _ _ hab hbc => le_trans hab hbc⟩
    exact List.sorted_insertionSort _ p.2
  · intro b hb
    obtain ⟨⟨u, hu, hune⟩, hkey⟩ := hinv.2 b (hperm.mem_iff.mp hb)
    refine ⟨u, hu, hune, ?_⟩
    have hkey2 : normalizeUrl (b.url.getD "") = p.1 := hkey
    rw [hu] at hkey2
    simpa using hkey2

/-- C1: every group emitted by `findDuplicateTabs` has at least two members,
its members are sorted ascending by id, and every member's URL normalizes
(default options) to the group's `normalizedUrl`; every group emitted by
`findDuplicateBookmarks` has at least two members, sorted ascending by
`dateAdded` (absent treated as 0), each normalizing to the group's
`normalizedUrl`. -/
theorem claim1_exact_duplicate_invariants :
    (∀ (tabs : List TabInfo), ∀ g ∈ findDuplicateTabs tabs,
      2 ≤ g.tabs.length ∧
      List.Sorted (fun a b : TabInfo => a.id ≤ b.id) g.tabs ∧
      ∀ t ∈ g.tabs, normalizeUrl t.url = g.normalizedUrl) ∧
    (∀ (bookmarks : List BookmarkNode), ∀ g ∈ findDuplicateBookmarks bookmarks,
      2 ≤ g.bookmarks.length ∧
      List.Sorted (fun a b : BookmarkNode => a.dateAdded.getD 0 ≤ b.dateAdded.getD 0)
        g.bookmarks ∧
      ∀ b ∈ g.bookmarks, ∃ u, b.url = some u ∧ normalizeUrl u = g.normalizedUrl) := by
  constructor
  · intro tabs g hg
    obtain ⟨h1, h2, h3⟩ := findDuplicateTabs_member_inv tabs g hg
    exact ⟨h1, h2, fun t ht => (h3 t ht).2⟩
  · intro bookmarks g hg
    obtain ⟨h1, h2, h3⟩ := findDuplicateBookmarks_member_inv bookmarks g hg
    exact ⟨h1, h2, fun b hb => (h3 b hb).elim fun u hu => ⟨u, hu.1, hu.2.2⟩⟩

theorem claim1_witness :
    2 ≤ (DuplicateGroup.mk "a.com/x"
        [{ id := 2, url := "http://a.com/x/" }, { id := 5, url := "https://www.a.com/x" }]).tabs.length ∧
    List.Sorted (fun a b : TabInfo => a.id ≤ b.id)
      (DuplicateGroup.mk "a.com/x"
        [{ id := 2, url := "http://a.com/x/" }, { id := 5, url := "https://www.a.com/x" }]).tabs ∧
    ∀ t ∈ (DuplicateGroup.mk "a.com/x"
        [{ id := 2, url := "http://a.com/x/" }, { id := 5, url := "https://www.a.com/x" }]).tabs,
      normalizeUrl t.url = (DuplicateGroup.mk "a.com/x"
        [{ id := 2, url := "http://a.com/x/" }, { id := 5, url := "https://www.a.com/x" }]).normalizedUrl :=
  claim1_exact_duplicate_invariants.1
    [{ id := 5, url := "https://www.a.com/x" }, { id := 2, url := "http://a.com/x/" }]
    (DuplicateGroup.mk "a.com/x"
      [{ id := 2, url := "http://a.com/x/" }, { id := 5, url := "https://www.a.com/x" }])
    (by decide)

/-- C8 counterexample: two bookmarks whose url has the browser-internal
`chrome:` scheme are grouped by `findDuplicateBookmarks` — the internal-URL
filter is not applied to bookmarks. -/
theorem claim8_counterexample :
    findDuplicateBookmarks
      [{ id := "1", url := some "chrome://settings" },
       { id := "2", url := some "chrome://settings", dateAdded := some 3 }]
      = [BookmarkDuplicateGroup.mk "chrome://settings"
          [{ id := "1", url := some "chrome://settings" },
           { id := "2", url := some "chrome://settings", dateAdded := some 3 }]] ∧
    isInternalUrl "chrome://settings" = true := by
  decide

/-- C8 amended: exact-duplicate clustering filters internal-URL records for
the tab record kind only; `findDuplicateBookmarks` merely skips records with
an absent or empty url, so internal-scheme bookmarks can appear in its
groups. -/
theorem claim8_amended :
    (∀ (tabs : List TabInfo), ∀ g ∈ findDuplicateTabs tabs, ∀ t ∈ g.tabs,
      isInternalUrl t.url = false) ∧
    (∀ (bookmarks : List BookmarkNode), ∀ g ∈ findDuplicateBookmarks bookmarks,
      ∀ b ∈ g.bookmarks, b.url ≠ none ∧ b.url ≠ some "") := by
  constructor
  · intro tabs g hg t ht
    exact ((findDuplicateTabs_member_inv tabs g hg).2.2 t ht).1
  · intro bookmarks g hg b hb
    obtain ⟨u, hu, hune, _⟩ := (findDuplicateBookmarks_member_inv bookmarks g hg).2.2 b hb
    rw [hu]
    exact ⟨by simp, by simpa using hune⟩

theorem claim8_witness :
    isInternalUrl ({ id := 2, url := "http://a.com/x/" } : TabInfo).url = false :=
  claim8_amended.1
    [{ id := 5, url := "https://www.a.com/x" }, { id := 2, url := "http://a.com/x/" }]
    (DuplicateGroup.mk "a.com/x"
      [{ id := 2, url := "http://a.com/x/" }, { id := 5, url := "https://www.a.com/x" }])
    (by decide)
    { id := 2, url := "http://a.com/x/" }
    (by decide)

/-! ## Claim C4: the path-similarity predicate -/

theorem countP_range_max_eq_zip (l1 l2 : List String) :
    (List.range (max l1.length l2.length)).countP (fun i => l1[i]? == l2[i]?)
      = ((l1.zip l2).filter fun q => q.1 = q.2).length := by
  induction l1 generalizing l2 with
  | nil =>
    cases l2 with
    | nil => simp
    | cons b bs =>
      simp only [List.zip_nil_left, List.filter_nil, List.length_nil]
      rw [List.countP_eq_zero]
      intro i hi
      rw [List.mem_range] at hi
      rw [List.getElem?_eq_getElem (show i < (b :: bs).length by simpa using hi)]
      simp
  | cons a as ih =>
    cases l2 with
    | nil =>
      simp only [List.zip_nil_right, List.filter_nil, List.length_nil]
      rw [List.countP_eq_zero]
      intro i hi
      rw [List.mem_range] at hi
      rw [List.getElem?_eq_getElem (show i < (a :: as).length by simpa using hi)]
      simp
    | cons b bs =>
      rw [List.length_cons, List.length_cons, Nat.succ_max_succ, List.range_succ_eq_map]
      rw [List.countP_cons, List.countP_map]
      have hfun : ((fun i => (a :: as)[i]? == (b :: bs)[i]?) ∘ Nat.succ)
          = fun i => as[i]? == bs[i]? := by
        funext i
        simp
      rw [hfun, ih bs]
      by_cases hab : a = b <;>
        simp [List.zip_cons_cons, List.filter_cons, hab, Nat.add_comm]

theorem mkRat_natCast_eq_div (m L : Nat) :
    mkRat (m : Int) L = (m : ℚ) / (L : ℚ) := by
  rw [Rat.mkRat_eq_divInt, Rat.divInt_eq_div]
  push_cast
  ring

/-- C4: for parseable URLs the clustering similarity predicate holds exactly
when the hostnames agree, the non-empty path-segment counts differ by at most
one, and either both paths have no segments or the fraction of index-aligned
identical segments relative to the larger count reaches the threshold; in
particular two same-domain tabs with paths `/a/b/c` and `/a/b/d` are not
clustered by `findNearDuplicateTabs` at threshold 4/5. -/
theorem claim4_path_similarity (u1 u2 : String) (parsed1 parsed2 : URLParts) (threshold : ℚ)
    (h1 : parseUrl u1 = some parsed1) (h2 : parseUrl u2 = some parsed2) :
    (areSimilarUrls u1 u2 threshold = true ↔ specPathSimilar parsed1 parsed2 threshold) ∧
    findNearDuplicateTabs
      [{ id := 1, url := "https://example.com/a/b/c" },
       { id := 2, url := "https://example.com/a/b/d" }] (mkRat 4 5) = [] := by
  refine ⟨?_, by decide⟩
  unfold areSimilarUrls specPathSimilar
  rw [h1, h2]
  simp only
  split_ifs with hhost hlen hmax
  · simp only [Bool.false_eq_true, false_iff]
    intro hcontra
    exact hhost hcontra.1
  · simp only [Bool.false_eq_true, false_iff]
    intro hcontra
    omega
  · simp only [true_iff]
    have hboth : (pathSegments parsed1.pathname).length = 0 ∧
        (pathSegments parsed2.pathname).length = 0 := by omega
    exact ⟨not_not.mp hhost, by omega, Or.inl hboth⟩
  · rw [decide_eq_true_iff]
    constructor
    · intro hge
      refine ⟨not_not.mp hhost, by omega, Or.inr ?_⟩
      rw [mkRat_natCast_eq_div, Nat.cast_max] at hge
      rw [← countP_range_max_eq_zip]
      exact hge
    · intro ⟨_, _, hdisj⟩
      rcases hdisj with ⟨hz1, hz2⟩ | hge
      · omega
      · rw [mkRat_natCast_eq_div, countP_range_max_eq_zip, Nat.cast_max]
        exact hge

theorem claim4_witness :
    (areSimilarUrls "https://x.com/a/b/c" "https://x.com/a/b/d" (mkRat 4 5) = true ↔
      specPathSimilar
        { protocol := "https:", hostname := "x.com", port := "",
          pathname := "/a/b/c", search := "", hash := "" }
        { protocol := "https:", hostname := "x.com", port := "",
          pathname := "/a/b/d", search := "", hash := "" } (mkRat 4 5)) ∧
    findNearDuplicateTabs
      [{ id := 1, url := "https://example.com/a/b/c" },
       { id := 2, url := "https://example.com/a/b/d" }] (mkRat 4 5) = [] :=
  claim4_path_similarity "https://x.com/a/b/c" "https://x.com/a/b/d"
    { protocol := "https:", hostname := "x.com", port := "",
      pathname := "/a/b/c", search := "", hash := "" }
    { protocol := "https:", hostname := "x.com", port := "",
      pathname := "/a/b/d", search := "", hash := "" }
    (mkRat 4 5) (by decide) (by decide)

/-! ## Claim C10: near-duplicate groups stay on one hostname -/

theorem areSimilarUrls_hostnameOf {u1 u2 : String} {threshold : ℚ}
    (h : areSimilarUrls u1 u2 threshold = true) : hostnameOf u1 = hostnameOf u2 := by
  unfold areSimilarUrls at h
  cases hp1 : parseUrl u1 with
  | none =>
    rw [hp1] at h
    cases hp2 : parseUrl u2 <;> rw [hp2] at h <;> simp at h
  | some p1 =>
    cases hp2 : parseUrl u2 with
    | none =>
      rw [hp1, hp2] at h
      simp at h
    | some p2 =>
      rw [hp1, hp2] at h
      simp only at h
      by_cases hh : p1.hostname ≠ p2.hostname
      · rw [if_pos hh] at h
        simp at h
      · unfold hostnameOf
        rw [hp1, hp2]
        simp [not_not.mp hh]

theorem addToClusters_inv (threshold : ℚ) (tab : TabInfo) (cls : List (List TabInfo))
    (h : ∀ c ∈ cls, ClusterProp threshold c) :
    ∀ c ∈ addToClusters threshold tab cls, ClusterProp threshold c := by
  induction cls with
  | nil =>
    intro c hc
    simp only [addToClusters, List.mem_singleton] at hc
    exact ⟨tab, [], hc, by simp⟩
  | cons c0 rest ih =>
    intro c hc
    unfold addToClusters at hc
    cases hh : c0.head? with
    | some r =>
      rw [hh] at hc
      simp only at hc
      by_cases hsim : areSimilarUrls tab.url r.url threshold = true
      · rw [if_pos hsim] at hc
        rcases List.mem_cons.mp hc with hc | hc
        · obtain ⟨r0, rest0, hc0, hsims⟩ := h c0 (List.mem_cons_self _ _)
          have hr : r = r0 := by
            rw [hc0] at hh
            simpa using hh.symm
          subst hc
          refine ⟨r0, rest0 ++ [tab], by rw [hc0]; simp, ?_⟩
          intro t ht
          rcases List.mem_append.mp ht with ht | ht
          · exact hsims t ht
          · rw [List.mem_singleton.mp ht, ← hr]
            exact hsim
        · exact h c (List.mem_cons_of_mem _ hc)
      · rw [if_neg hsim] at hc
        rcases List.mem_cons.mp hc with hc | hc
        · subst hc
          exact h c (List.mem_cons_self _ _)
        · exact ih (fun q hq => h q (List.mem_cons_of_mem _ hq)) c hc
    | none =>
      rw [hh] at hc
      simp only at hc
      rcases List.mem_cons.mp hc with hc | hc
      · subst hc
        exact h c (List.mem_cons_self _ _)
      · exact ih (fun q hq => h q (List.mem_cons_of_mem _ hq)) c hc

theorem fold_addToClusters_inv (threshold : ℚ) (l : List TabInfo) :
    ∀ cls, (∀ c ∈ cls, ClusterProp threshold c) →
      ∀ c ∈ l.foldl (fun cls tab => addToClusters threshold tab cls) cls,
        ClusterProp threshold c := by
  induction l with
  | nil => exact fun cls h => h
  | cons t ts ih =>
    intro cls h
    rw [List.foldl_cons]
    exact ih _ (addToClusters_inv threshold t cls h)

theorem clusterProp_hostname {threshold : ℚ} {c : List TabInfo}
    (h : ClusterProp threshold c) :
    ∀ t1 ∈ c, ∀ t2 ∈ c, hostnameOf t1.url = hostnameOf t2.url := by
  obtain ⟨r, rest, rfl, hsims⟩ := h
  have key : ∀ t ∈ r :: rest, hostnameOf t.url = hostnameOf r.url := by
    intro t ht
    rcases List.mem_cons.mp ht with ht | ht
    · rw [ht]
    · exact areSimilarUrls_hostnameOf (hsims t ht)
  intro t1 h1 t2 h2
  rw [key t1 h1, key t2 h2]

/-- C10: every group returned by `findNearDuplicateTabs` is hostname
homogeneous — two members always parse to the same raw hostname — and in
particular a `www.`-prefixed URL and its bare counterpart are never reported
together. -/
theorem claim10_near_duplicates_one_hostname :
    (∀ (tabs : List TabInfo) (threshold : ℚ), ∀ g ∈ findNearDuplicateTabs tabs threshold,
      ∀ t1 ∈ g.tabs, ∀ t2 ∈ g.tabs, hostnameOf t1.url = hostnameOf t2.url) ∧
    findNearDuplicateTabs
      [{ id := 1, url := "https://www.x.com/p" }, { id := 2, url := "https://x.com/p" }]
      (mkRat 4 5) = [] := by
  refine ⟨?_, by decide⟩
  intro tabs threshold g hg t1 h1 t2 h2
  simp only [findNearDuplicateTabs] at hg
  rw [mem_foldl_append
    (fun dg : String × List TabInfo =>
      if dg.2.length < 2 then []
      else ((dg.2.foldl (fun cls tab => addToClusters threshold tab cls) []).filter
          fun c => 1 < c.length).map fun c =>
        { normalizedUrl := normalizeUrl ((c.head?.map TabInfo.url).getD "")
          tabs := c })
    _ _ ?hstep _ g] at hg
  case hstep =>
    intro acc dg
    by_cases hlt : dg.2.length < 2 <;> simp [hlt]
  rcases hg with hg | ⟨dg, _, hg⟩
  · simp at hg
  · by_cases hlt : dg.2.length < 2
    · rw [if_pos hlt] at hg
      simp at hg
    · rw [if_neg hlt] at hg
      rw [List.mem_map] at hg
      obtain ⟨c, hcfil, rfl⟩ := hg
      rw [List.mem_filter] at hcfil
      have hcp := fold_addToClusters_inv threshold dg.2 [] (by simp) c hcfil.1
      exact clusterProp_hostname hcp t1 h1 t2 h2

theorem claim10_witness :
    hostnameOf ({ id := 1, url := "https://example.com/a/b/c" } : TabInfo).url
      = hostnameOf ({ id := 2, url := "https://example.com/a/b/d" } : TabInfo).url :=
  claim10_near_duplicates_one_hostname.1
    [{ id := 1, url := "https://example.com/a/b/c" },
     { id := 2, url := "https://example.com/a/b/d" }]
    (mkRat 1 2)
    (DuplicateGroup.mk "example.com/a/b/c"
      [{ id := 1, url := "https://example.com/a/b/c" },
       { id := 2, url := "https://example.com/a/b/d" }])
    (by decide)
    { id := 1, url := "https://example.com/a/b/c" } (by decide)
    { id := 2, url := "https://example.com/a/b/d" } (by decide)

/-! ## Claims C5, C6, C7: normalization properties -/

theorem toLower_ne (c x : Char) (hx : x.toNat < 97) (hne : c ≠ x) : Char.toLower c ≠ x := by
  unfold Char.toLower
  simp only
  split
  · intro heq
    have hv : (Char.ofNat (c.toNat + 32)).toNat = c.toNat + 32 := by
      unfold Char.ofNat
      rw [dif_pos (Or.inl (by omega))]
      simp [Char.ofNatAux, Char.toNat, UInt32.toNat, BitVec.toNat_ofNatLt]
    have := congrArg Char.toNat heq
    rw [hv] at this
    omega
  · exact hne

theorem parseHttpRest_hostname (scheme : String) (afterColon : List Char) (p : URLParts)
    (h : parseHttpRest scheme afterColon = some p) :
    ∀ c ∈ p.hostname.data, c ≠ ':' ∧ c ≠ '/' ∧ c ≠ '?' := by
  unfold parseHttpRest at h
  split at h
  · next afterSlashes =>
    simp only [] at h
    split_ifs at h with hAt hHost hPort hPath hSearch hHash
    all_goals rw [Option.some.injEq] at h
    all_goals subst h
    all_goals
      intro c hc
      simp only at hc
      obtain ⟨c0, hc0, rfl⟩ := List.mem_map.mp hc
      have hcolon : c0 ≠ ':' := by simpa using List.mem_takeWhile_imp hc0
      have hauth : c0 ∈ afterSlashes.takeWhile (fun c => !isAuthEnd c) :=
        ( List.takeWhile_prefix _).sublist.subset hc0
      have hae : isAuthEnd c0 = false := by simpa using List.mem_takeWhile_imp hauth
      have hslash : c0 ≠ '/' := by
        intro hcon
        rw [hcon] at hae
        simp [isAuthEnd] at hae
      have hq : c0 ≠ '?' := by
        intro hcon
        rw [hcon] at hae
        simp [isAuthEnd] at hae
      exact ⟨toLower_ne c0 ':' (by decide) hcolon,
             toLower_ne c0 '/' (by decide) hslash,
             toLower_ne c0 '?' (by decide) hq⟩
  · exact absurd h (by simp)

theorem parseHttpRest_pathname (scheme : String) (afterColon : List Char) (p : URLParts)
    (h : parseHttpRest scheme afterColon = some p) :
    ∃ t, p.pathname.data = '/' :: t := by
  unfold parseHttpRest at h
  split at h
  · next afterSlashes =>
    simp only [] at h
    split_ifs at h with hAt hHost hPort hPath hSearch hHash
    all_goals rw [Option.some.injEq] at h
    all_goals subst h
    all_goals simp only
    all_goals first
      | exact ⟨[], rfl⟩
      | {
          cases haa : afterSlashes.dropWhile fun c => !isAuthEnd c with
          | nil =>
            rw [haa] at hPath
            simp at hPath
          | cons h0 t0 =>
            have hmatch := List.head?_dropWhile_not (fun c => !isAuthEnd c) afterSlashes
            rw [haa] at hmatch
            simp only [List.head?_cons] at hmatch
            have hae : isAuthEnd h0 = true := by simpa using hmatch
            have hd : h0 = '/' ∨ h0 = '?' ∨ h0 = '#' := by
              simpa [isAuthEnd, or_assoc] using hae
            rcases hd with hd | hd | hd
            · subst hd
              rw [List.takeWhile_cons, if_pos (by decide)]
              exact ⟨_, rfl⟩
            · subst hd
              rw [haa, List.takeWhile_cons, if_neg (by decide)] at hPath
              exact absurd rfl hPath
            · subst hd
              rw [haa, List.takeWhile_cons, if_neg (by decide)] at hPath
              exact absurd rfl hPath
        }
  · exact absurd h (by simp)

theorem validSchemeChars_eq_false (l : List Char) (c : Char) (hc : c ∈ l)
    (h1 : isSchemeChar c = false) (h2 : c.isAlpha = false) :
    validSchemeChars l = false := by
  cases l with
  | nil => rfl
  | cons a as =>
    rcases List.mem_cons.mp hc with hc | hc
    · subst hc
      simp [validSchemeChars, h2]
    · have : as.all isSchemeChar = false := by
        rw [← Bool.not_eq_true, List.all_eq_true]
        push_neg
        exact ⟨c, hc, by simp [h1]⟩
      simp [validSchemeChars, this]

theorem parseUrl_no_scheme (s : String) (host rest : List Char)
    (hs : s.data = host ++ rest)
    (hhost : ∀ c ∈ host, c ≠ ':')
    (hrest : rest = [] ∨ ∃ t, rest = '/' :: t ∨ rest = '?' :: t) :
    parseUrl s = none := by
  have hp1 : ∀ c ∈ host, (c != ':') = true := by
    intro c hc
    simpa using hhost c hc
  unfold parseUrl
  simp only []
  rw [hs, List.dropWhile_append_of_pos hp1, List.takeWhile_append_of_pos hp1]
  rcases hrest with hrest | ⟨t, hrest | hrest⟩
  · subst hrest
    rfl
  · subst hrest
    cases hdw : (('/' :: t).dropWhile fun c => c != ':') with
    | nil => rfl
    | cons a afterColon =>
      simp only []
      rw [if_pos ?hcond]
      case hcond =>
        have hmem : '/' ∈ host ++ ('/' :: t).takeWhile fun c => c != ':' := by
          apply List.mem_append_right
          rw [List.takeWhile_cons, if_pos (by decide)]
          exact List.mem_cons_self _ _
        rw [validSchemeChars_eq_false _ '/' hmem (by decide) (by decide)]
        rfl
  · subst hrest
    cases hdw : (('?' :: t).dropWhile fun c => c != ':') with
    | nil => rfl
    | cons a afterColon =>
      simp only []
      rw [if_pos ?hcond]
      case hcond =>
        have hmem : '?' ∈ host ++ ('?' :: t).takeWhile fun c => c != ':' := by
          apply List.mem_append_right
          rw [List.takeWhile_cons, if_pos (by decide)]
          exact List.mem_cons_self _ _
        rw [validSchemeChars_eq_false _ '?' hmem (by decide) (by decide)]
        rfl

theorem parseUrl_inv (u : String) (p : URLParts) (hp : parseUrl u = some p)
    (hproto : (p.protocol == "http:" || p.protocol == "https:") = true) :
    (∀ c ∈ p.hostname.data, c ≠ ':' ∧ c ≠ '/' ∧ c ≠ '?') ∧
    ∃ t, p.pathname.data = '/' :: t := by
  unfold parseUrl at hp
  simp only [] at hp
  split at hp
  · exact absurd hp (by simp)
  · split_ifs at hp with h1 h2
    · exact ⟨parseHttpRest_hostname _ _ _ hp, parseHttpRest_pathname _ _ _ hp⟩
    · rw [Option.some.injEq] at hp
      subst hp
      exfalso
      simp only at hproto
      rcases Bool.or_eq_true_iff.mp hproto with hb | hb
      · have heq : (List.map Char.toLower (u.data.takeWhile fun c => c != ':')).asString ++ ":"
            = "http:" := by
          exact eq_of_beq hb
        have hdata := congrArg String.data heq
        rw [String.data_append] at hdata
        have : (List.map Char.toLower (u.data.takeWhile fun c => c != ':')).asString
            = "http" := by
          apply String.ext
          exact List.append_cancel_right (by simpa using hdata)
        rw [this] at h2
        simp at h2
      · have heq : (List.map Char.toLower (u.data.takeWhile fun c => c != ':')).asString ++ ":"
            = "https:" := by
          exact eq_of_beq hb
        have hdata := congrArg String.data heq
        rw [String.data_append] at hdata
        have : (List.map Char.toLower (u.data.takeWhile fun c => c != ':')).asString
            = "https" := by
          apply String.ext
          exact List.append_cancel_right (by simpa using hdata)
        rw [this] at h2
        simp at h2

theorem stripWwwStr_subset (s : String) : ∀ c ∈ (stripWwwStr s).data, c ∈ s.data := by
  unfold stripWwwStr
  split_ifs with h
  · intro c hc
    exact List.mem_of_mem_drop hc
  · exact fun c hc => hc

theorem serializeSearch_shape (ps : List (String × String)) :
    (serializeSearch ps).data = [] ∨ ∃ t, (serializeSearch ps).data = '?' :: t := by
  unfold serializeSearch
  simp only []
  split_ifs with h
  · left
    rfl
  · right
    exact ⟨(serializeParams ps).data, by rw [String.data_append]; rfl⟩

theorem normalizeUrlCore_shape (p : URLParts)
    (hhost : ∀ c ∈ p.hostname.data, c ≠ ':' ∧ c ≠ '/' ∧ c ≠ '?')
    (hpath : ∃ t, p.pathname.data = '/' :: t) :
    ∃ host rest, (normalizeUrlCore p (resolveOptions {})).data = host ++ rest ∧
      (∀ c ∈ host, c ≠ ':') ∧
      (rest = [] ∨ ∃ t, rest = '/' :: t ∨ rest = '?' :: t) := by
  obtain ⟨tp, htp⟩ := hpath
  have hro : resolveOptions {} = ⟨true, true, true, true, true, true, true⟩ := rfl
  rw [hro]
  unfold normalizeUrlCore
  simp only [Bool.not_true, Bool.or_self, Bool.false_eq_true, false_and, true_and,
    if_true, if_false]
  set H := toLowerStr (stripWwwStr p.hostname) with hH
  set S := serializeSearch (canonicalizeParams true true (parseQueryEntries p.search)) with hS
  have hHchars : ∀ c ∈ H.data, c ≠ ':' := by
    intro c hc
    rw [hH] at hc
    unfold toLowerStr at hc
    obtain ⟨c0, hc0, rfl⟩ := List.mem_map.mp hc
    exact toLower_ne c0 ':' (by decide) (hhost c0 (stripWwwStr_subset p.hostname c0 hc0)).1
  have hbase : (("" : String) ++ H ++ p.pathname).data = H.data ++ '/' :: tp := by
    rw [String.data_append, String.data_append, htp]
    rfl
  have hSshape := serializeSearch_shape (canonicalizeParams true true (parseQueryEntries p.search))
  rw [← hS] at hSshape
  split_ifs with hstrip
  · refine ⟨H.data, (('/' :: tp).dropLast) ++ S.data, ?_, hHchars, ?_⟩
    · rw [String.data_append]
      show ("" ++ H ++ p.pathname).data.dropLast ++ S.data = _
      rw [hbase, List.dropLast_append_of_ne_nil _ (by simp), List.append_assoc]
    · cases tp with
      | nil =>
        simp only [List.dropLast_single, List.nil_append]
        rcases hSshape with hs | ⟨t, hs⟩
        · exact Or.inl hs
        · exact Or.inr ⟨t, Or.inr hs⟩
      | cons a ts =>
        right
        refine ⟨(a :: ts).dropLast ++ S.data, Or.inl ?_⟩
        rw [List.dropLast_cons_of_ne_nil (by simp)]
        rfl
  · refine ⟨H.data, '/' :: (tp ++ S.data), ?_, hHchars, Or.inr ⟨tp ++ S.data, Or.inl rfl⟩⟩
    rw [String.data_append, hbase]
    simp

/-- C5: for every valid http(s) URL, `normalizeUrl` with default options is
idempotent — the normalized output (scheme stripped) no longer parses as a
URL, so a second normalization returns it unchanged. -/
theorem claim5_normalize_idempotent (u : String) (h : isValidHttpUrl u = true) :
    normalizeUrl (normalizeUrl u) = normalizeUrl u := by
  cases hp : parseUrl u with
  | none =>
    have hid : normalizeUrl u = u := by
      unfold normalizeUrl
      rw [hp]
    rw [hid]
    exact hid
  | some p =>
    by_cases hproto : (p.protocol == "http:" || p.protocol == "https:") = true
    · have hN : normalizeUrl u = normalizeUrlCore p (resolveOptions {}) := by
        unfold normalizeUrl
        rw [hp]
        simp [hproto]
      obtain ⟨hhost, hpath⟩ := parseUrl_inv u p hp hproto
      obtain ⟨host, rest, hdec, hhost2, hrest⟩ := normalizeUrlCore_shape p hhost hpath
      have hnone : parseUrl (normalizeUrl u) = none := by
        apply parseUrl_no_scheme _ host rest _ hhost2 hrest
        rw [hN]
        exact hdec
      set N := normalizeUrl u with hNdef
      unfold normalizeUrl
      rw [hnone]
    · have hid : normalizeUrl u = u := by
        unfold normalizeUrl
        rw [hp]
        simp [hproto]
      rw [hid]
      exact hid

theorem empty_append_str (s : String) : "" ++ s = s := by
  apply String.ext
  rw [String.data_append]
  rfl

/-- C7 amended: with default options, exactly one trailing slash is removed
from the hostname-plus-path string whenever it ends in `/` and is longer than
one character — in particular the root path's slash after a non-empty
hostname is removed too — and nothing is removed otherwise; the surviving
query is appended afterwards. -/
theorem claim7_amended (u : String) (p : URLParts)
    (hp : parseUrl u = some p)
    (hproto : (p.protocol == "http:" || p.protocol == "https:") = true) :
    (((toLowerStr (stripWwwStr p.hostname) ++ p.pathname).data.getLast? = some '/' ∧
        1 < (toLowerStr (stripWwwStr p.hostname) ++ p.pathname).data.length) →
      normalizeUrl u
        = (toLowerStr (stripWwwStr p.hostname) ++ p.pathname).data.dropLast.asString
          ++ serializeSearch (canonicalizeParams true true (parseQueryEntries p.search))) ∧
    (¬((toLowerStr (stripWwwStr p.hostname) ++ p.pathname).data.getLast? = some '/' ∧
        1 < (toLowerStr (stripWwwStr p.hostname) ++ p.pathname).data.length) →
      normalizeUrl u
        = (toLowerStr (stripWwwStr p.hostname) ++ p.pathname)
          ++ serializeSearch (canonicalizeParams true true (parseQueryEntries p.search))) := by
  have hN : normalizeUrl u = normalizeUrlCore p (resolveOptions {}) := by
    unfold normalizeUrl
    rw [hp]
    simp [hproto]
  have hro : resolveOptions {} = ⟨true, true, true, true, true, true, true⟩ := rfl
  rw [hN, hro]
  unfold normalizeUrlCore
  simp only [Bool.not_true, Bool.or_self, Bool.false_eq_true, false_and, true_and,
    if_true, if_false]
  rw [empty_append_str]
  constructor
  · intro hcond
    rw [if_pos hcond]
  · intro hcond
    rw [if_neg hcond]

theorem listCharLe_total : ∀ a b, listCharLe a b = true ∨ listCharLe b a = true := by
  intro a
  induction a with
  | nil => exact fun b => Or.inl rfl
  | cons x xs ih =>
    intro b
    cases b with
    | nil => exact Or.inr rfl
    | cons y ys =>
      unfold listCharLe
      by_cases hxy : x < y
      · left
        rw [if_pos hxy]
      · by_cases hyx : y < x
        · right
          rw [if_pos hyx]
        · rw [if_neg hxy, if_neg hyx, if_neg hyx, if_neg hxy]
          exact ih ys

theorem listCharLe_trans :
    ∀ a b c, listCharLe a b = true → listCharLe b c = true → listCharLe a c = true := by
  intro a
  induction a with
  | nil => exact fun b c _ _ => rfl
  | cons x xs ih =>
    intro b c h1 h2
    cases b with
    | nil => simp [listCharLe] at h1
    | cons y ys =>
      cases c with
      | nil => simp [listCharLe] at h2
      | cons z zs =>
        unfold listCharLe at h1 h2 ⊢
        by_cases hxy : x < y
        · rw [if_pos hxy] at h1
          by_cases hyz : y < z
          · rw [if_pos (lt_trans hxy hyz)]
          · by_cases hzy : z < y
            · rw [if_neg hyz, if_pos hzy] at h2
              exact absurd h2 (by simp)
            · have hyz2 : y = z := le_antisymm (not_lt.mp hzy) (not_lt.mp hyz)
              rw [if_pos (hyz2 ▸ hxy)]
        · by_cases hyx : y < x
          · rw [if_neg hxy, if_pos hyx] at h1
            exact absurd h1 (by simp)
          · have hxy2 : x = y := le_antisymm (not_lt.mp hyx) (not_lt.mp hxy)
            rw [if_neg hxy, if_neg hyx] at h1
            by_cases hyz : y < z
            · rw [if_pos (hxy2 ▸ hyz)]
            · by_cases hzy : z < y
              · rw [if_neg hyz, if_pos hzy] at h2
                exact absurd h2 (by simp)
              · have hyz2 : y = z := le_antisymm (not_lt.mp hzy) (not_lt.mp hyz)
                rw [if_neg hyz, if_neg hzy] at h2
                have hxz : ¬ x < z := by
                  rw [hxy2, hyz2]
                  exact lt_irrefl z
                have hzx : ¬ z < x := by
                  rw [hxy2, hyz2]
                  exact lt_irrefl z
                rw [if_neg hxz, if_neg hzx]
                exact ih ys zs h1 h2

theorem strLe_total (a b : String) : strLe a b = true ∨ strLe b a = true :=
  listCharLe_total a.data b.data

theorem strLe_trans (a b c : String) (h1 : strLe a b = true) (h2 : strLe b c = true) :
    strLe a c = true :=
  listCharLe_trans a.data b.data c.data h1 h2

theorem mem_setParam (k v : String) (ps : List (String × String)) :
    ∀ x ∈ setParam k v ps, x = (k, v) ∨ x ∈ ps := by
  induction ps with
  | nil =>
    intro x hx
    exact Or.inl (List.mem_singleton.mp hx)
  | cons e rest ih =>
    obtain ⟨k', v'⟩ := e
    intro x hx
    unfold setParam at hx
    by_cases hk : k' = k
    · rw [if_pos hk] at hx
      rcases List.mem_cons.mp hx with hx | hx
      · exact Or.inl hx
      · exact Or.inr (List.mem_cons_of_mem _ (List.mem_of_mem_filter hx))
    · rw [if_neg hk] at hx
      rcases List.mem_cons.mp hx with hx | hx
      · exact Or.inr (hx ▸ List.mem_cons_self _ _)
      · rcases ih x hx with hx | hx
        · exact Or.inl hx
        · exact Or.inr (List.mem_cons_of_mem _ hx)

theorem keys_setParam_nodup (k v : String) (ps : List (String × String))
    (h : (ps.map Prod.fst).Nodup) : ((setParam k v ps).map Prod.fst).Nodup := by
  induction ps with
  | nil => simp [setParam]
  | cons e rest ih =>
    obtain ⟨k', v'⟩ := e
    rw [List.map_cons, List.nodup_cons] at h
    unfold setParam
    by_cases hk : k' = k
    · rw [if_pos hk]
      rw [List.map_cons, List.nodup_cons]
      constructor
      · intro hmem
        rw [List.mem_map] at hmem
        obtain ⟨x, hx, hfst⟩ := hmem
        have := List.of_mem_filter hx
        simp only [removeAllParams] at hx
        exact absurd hfst (by simpa using List.of_mem_filter hx)
      · refine List.Nodup.sublist ?_ h.2
        exact List.Sublist.map _ (List.filter_sublist _)
    · rw [if_neg hk]
      rw [List.map_cons, List.nodup_cons]
      refine ⟨?_, ih h.2⟩
      intro hmem
      rw [List.mem_map] at hmem
      obtain ⟨x, hx, hfst⟩ := hmem
      rcases mem_setParam k v rest x hx with hx2 | hx2
      · rw [hx2] at hfst
        exact hk hfst.symm
      · exact h.1 (List.mem_map.mpr ⟨x, hx2, hfst⟩)

theorem setParam_sorted (k v : String) (ps : List (String × String))
    (h : List.Sorted (fun a b : String × String => strLe a.1 b.1 = true) ps)
    (hub : ∀ q ∈ ps, strLe q.1 k = true) :
    List.Sorted (fun a b : String × String => strLe a.1 b.1 = true) (setParam k v ps) := by
  induction ps with
  | nil => simp [setParam]
  | cons e rest ih =>
    obtain ⟨k', v'⟩ := e
    rw [List.sorted_cons] at h
    unfold setParam
    by_cases hk : k' = k
    · rw [if_pos hk]
      rw [List.sorted_cons]
      constructor
      · intro b hb
        simpa [← hk] using h.1 b (List.mem_of_mem_filter hb)
      · exact List.Pairwise.sublist (List.filter_sublist _) h.2
    · rw [if_neg hk]
      rw [List.sorted_cons]
      constructor
      · intro b hb
        rcases mem_setParam k v rest b hb with hb2 | hb2
        · rw [hb2]
          exact hub (k', v') (List.mem_cons_self _ _)
        · exact h.1 b hb2
      · exact ih h.2 (fun q hq => hub q (List.mem_cons_of_mem _ hq))

theorem lookup_setParam_self (k v : String) (ps : List (String × String)) :
    List.lookup k (setParam k v ps) = some v := by
  induction ps with
  | nil => simp [setParam, List.lookup]
  | cons e rest ih =>
    obtain ⟨k', v'⟩ := e
    unfold setParam
    by_cases hk : k' = k
    · rw [if_pos hk]
      simp [List.lookup]
    · rw [if_neg hk]
      simp only [List.lookup]
      have : (k == k') = false := by
        simp
        exact fun hc => hk hc.symm
      rw [this]
      exact ih

theorem lookup_removeAll (a k : String) (ps : List (String × String)) (hne : a ≠ k) :
    List.lookup a (removeAllParams k ps) = List.lookup a ps := by
  induction ps with
  | nil => rfl
  | cons e rest ih =>
    obtain ⟨k', v'⟩ := e
    unfold removeAllParams
    rw [List.filter_cons]
    by_cases hk : k' = k
    · rw [if_neg (by simp [hk])]
      have hr : List.lookup a ((k', v') :: rest) = List.lookup a rest := by
        simp only [List.lookup]
        have hf : (a == k') = false := by
          rw [hk]
          simpa using hne
        rw [hf]
      rw [hr]
      exact ih
    · rw [if_pos (by simpa using hk)]
      simp only [List.lookup]
      cases hak : a == k' with
      | true => rfl
      | false => exact ih

theorem lookup_setParam_other (a k v : String) (ps : List (String × String)) (hne : a ≠ k) :
    List.lookup a (setParam k v ps) = List.lookup a ps := by
  induction ps with
  | nil =>
    have h0 : (a == k) = false := by simpa using hne
    simp [setParam, List.lookup, h0]
  | cons e rest ih =>
    obtain ⟨k', v'⟩ := e
    unfold setParam
    by_cases hk : k' = k
    · rw [if_pos hk]
      simp only [List.lookup]
      have h1 : (a == k) = false := by simpa using hne
      have h2 : (a == k') = false := by
        rw [hk]
        exact h1
      rw [h1, h2, lookup_removeAll a k rest hne]
    · rw [if_neg hk]
      simp only [List.lookup]
      cases hak : a == k' with
      | true => rfl
      | false => exact ih

theorem fold_setParam_nodup (st : Bool) (es : List (String × String)) :
    ∀ ps, (ps.map Prod.fst).Nodup →
      ((es.foldl (fun ps kv =>
          if st && TRACKING_PARAMS.contains (toLowerStr kv.1) then ps
          else setParam kv.1 kv.2 ps) ps).map Prod.fst).Nodup := by
  induction es with
  | nil => exact fun ps h => h
  | cons e es' ih =>
    intro ps h
    rw [List.foldl_cons]
    by_cases hkeep : (st && TRACKING_PARAMS.contains (toLowerStr e.1)) = true
    · rw [if_pos hkeep]
      exact ih ps h
    · rw [if_neg hkeep]
      exact ih _ (keys_setParam_nodup e.1 e.2 ps h)

theorem fold_setParam_sorted (st : Bool) (es : List (String × String))
    (hes : List.Sorted (fun a b : String × String => strLe a.1 b.1 = true) es) :
    ∀ ps, List.Sorted (fun a b : String × String => strLe a.1 b.1 = true) ps →
      (∀ q ∈ ps, ∀ e ∈ es, strLe q.1 e.1 = true) →
      List.Sorted (fun a b : String × String => strLe a.1 b.1 = true)
        (es.foldl (fun ps kv =>
          if st && TRACKING_PARAMS.contains (toLowerStr kv.1) then ps
          else setParam kv.1 kv.2 ps) ps) := by
  induction es with
  | nil => exact fun ps h _ => h
  | cons e es' ih =>
    intro ps h hub
    rw [List.sorted_cons] at hes
    rw [List.foldl_cons]
    by_cases hkeep : (st && TRACKING_PARAMS.contains (toLowerStr e.1)) = true
    · rw [if_pos hkeep]
      exact ih hes.2 ps h (fun q hq x hx => hub q hq x (List.mem_cons_of_mem _ hx))
    · rw [if_neg hkeep]
      refine ih hes.2 _ (setParam_sorted e.1 e.2 ps h
        (fun q hq => hub q hq e (List.mem_cons_self _ _))) ?_
      intro q hq x hx
      rcases mem_setParam e.1 e.2 ps q hq with hq2 | hq2
      · rw [hq2]
        exact hes.1 x hx
      · exact hub q hq2 x (List.mem_cons_of_mem _ hx)

theorem fold_setParam_lookup (st : Bool) (k : String) (es : List (String × String)) :
    ∀ ps, List.lookup k (es.foldl (fun ps kv =>
          if st && TRACKING_PARAMS.contains (toLowerStr kv.1) then ps
          else setParam kv.1 kv.2 ps) ps)
      = match ((es.filter (fun kv => !(st && TRACKING_PARAMS.contains (toLowerStr kv.1)))).filter
            (fun kv => kv.1 = k)).getLast? with
        | some kv => some kv.2
        | none => List.lookup k ps := by
  induction es with
  | nil => simp
  | cons e es' ih =>
    intro ps
    rw [List.foldl_cons]
    by_cases hkeep : (st && TRACKING_PARAMS.contains (toLowerStr e.1)) = true
    · rw [if_pos hkeep]
      rw [ih ps]
      have hf : List.filter (fun kv => !(st && TRACKING_PARAMS.contains (toLowerStr kv.1)))
          (e :: es')
          = List.filter (fun kv => !(st && TRACKING_PARAMS.contains (toLowerStr kv.1))) es' := by
        rw [List.filter_cons, if_neg (by rw [hkeep]; decide)]
      rw [hf]
    · rw [if_neg hkeep]
      rw [ih (setParam e.1 e.2 ps)]
      have hkeep2 : (st && TRACKING_PARAMS.contains (toLowerStr e.1)) = false := by
        simpa using hkeep
      have hf : List.filter (fun kv => !(st && TRACKING_PARAMS.contains (toLowerStr kv.1)))
          (e :: es')
          = e :: List.filter (fun kv => !(st && TRACKING_PARAMS.contains (toLowerStr kv.1))) es' := by
        rw [List.filter_cons, if_pos (by rw [hkeep2]; decide)]
      rw [hf]
      by_cases hek : e.1 = k
      · have hfk : List.filter (fun kv => decide (kv.1 = k))
            (e :: List.filter (fun kv => !(st && TRACKING_PARAMS.contains (toLowerStr kv.1))) es')
            = e :: List.filter (fun kv => decide (kv.1 = k))
              (List.filter (fun kv => !(st && TRACKING_PARAMS.contains (toLowerStr kv.1))) es') := by
          rw [List.filter_cons, if_pos (by simpa using hek)]
        rw [hfk]
        cases hL : List.filter (fun kv => decide (kv.1 = k))
            (List.filter (fun kv => !(st && TRACKING_PARAMS.contains (toLowerStr kv.1))) es') with
        | nil =>
          simp only [hL, List.getLast?_singleton, List.getLast?_nil]
          rw [← hek]
          exact lookup_setParam_self e.1 e.2 ps
        | cons b bs =>
          have hgl : (e :: b :: bs).getLast? = (b :: bs).getLast? := List.getLast?_cons_cons
          rw [hgl]
          cases hg : (b :: bs).getLast? with
          | none => exact absurd (List.getLast?_eq_none_iff.mp hg) (by simp)
          | some x => rfl
      · have hfk : List.filter (fun kv => decide (kv.1 = k))
            (e :: List.filter (fun kv => !(st && TRACKING_PARAMS.contains (toLowerStr kv.1))) es')
            = List.filter (fun kv => decide (kv.1 = k))
              (List.filter (fun kv => !(st && TRACKING_PARAMS.contains (toLowerStr kv.1))) es') := by
          rw [List.filter_cons, if_neg (by simpa using hek)]
        rw [hfk]
        rw [lookup_setParam_other k e.1 e.2 ps (fun hc => hek hc.symm)]

/-- C6 counterexample: duplicate (key, value) pairs do not all survive query
canonicalization — `URLSearchParams.set` replaces, so of `p=1&p=2` only the
last pair remains. -/
theorem claim6_counterexample :
    normalizeUrl "https://a.com/x?p=1&p=2" = "a.com/x?p=2" ∧
    parseQueryEntries "?p=1&p=2" = [("p", "1"), ("p", "2")] ∧
    canonicalizeParams true true [("p", "1"), ("p", "2")] = [("p", "2")] := by
  decide

/-- C6 amended: query canonicalization keeps at most one pair per key (keys of
the output are pairwise distinct), the surviving pairs are sorted by key
(ordinal comparison) when `sortParams` is set, and the value surviving for a
key is the value of the last kept pair with that key in iteration order. -/
theorem claim6_amended (stripTracking sortP : Bool) (entries : List (String × String)) :
    ((canonicalizeParams stripTracking sortP entries).map Prod.fst).Nodup ∧
    (sortP = true → List.Sorted (fun a b : String × String => strLe a.1 b.1 = true)
      (canonicalizeParams stripTracking sortP entries)) ∧
    ∀ k, List.lookup k (canonicalizeParams stripTracking sortP entries)
      = (((if sortP then List.insertionSort (fun a b : String × String => strLe a.1 b.1 = true) entries
            else entries).filter
            (fun kv => !(stripTracking && TRACKING_PARAMS.contains (toLowerStr kv.1)))).filter
          (fun kv => kv.1 = k)).getLast?.map Prod.snd := by
  unfold canonicalizeParams
  simp only []
  refine ⟨fold_setParam_nodup _ _ [] (by simp), ?_, ?_⟩
  · intro hsp
    rw [if_pos hsp]
    haveI : IsTotal (String × String) (fun a b : String × String => strLe a.1 b.1 = true) :=
      ⟨fun a b => strLe_total a.1 b.1⟩
    haveI : IsTrans (String × String) (fun a b : String × String => strLe a.1 b.1 = true) :=
      ⟨fun _ _ _ hab hbc => strLe_trans _ _ _ hab hbc⟩
    exact fold_setParam_sorted stripTracking _ (List.sorted_insertionSort _ entries) []
      (by simp) (by simp)
  · intro k
    rw [fold_setParam_lookup]
    cases hg : (((if sortP then
          List.insertionSort (fun a b : String × String => strLe a.1 b.1 = true) entries
          else entries).filter
          (fun kv => !(stripTracking && TRACKING_PARAMS.contains (toLowerStr kv.1)))).filter
        (fun kv => kv.1 = k)).getLast? with
    | none => simp
    | some x => simp

theorem claim6_witness :
    List.Sorted (fun a b : String × String => strLe a.1 b.1 = true)
      (canonicalizeParams true true [("p", "1"), ("p", "2")]) :=
  (claim6_amended true true [("p", "1"), ("p", "2")]).2.1 rfl

theorem claim5_witness :
    isValidHttpUrl "http://www.Example.com/foo/?b=2&utm_source=x&a=1#frag" = true ∧
    normalizeUrl (normalizeUrl "http://www.Example.com/foo/?b=2&utm_source=x&a=1#frag")
      = normalizeUrl "http://www.Example.com/foo/?b=2&utm_source=x&a=1#frag" :=
  ⟨by decide, claim5_normalize_idempotent _ (by decide)⟩

/-- C7 counterexample: a URL whose path is exactly the root `/` does not keep
that slash — `normalizeUrl "https://example.com/"` is `"example.com"`, because
the trailing-slash rule looks at the whole hostname-plus-path string (length
greater than one), not at the path alone. -/
theorem claim7_counterexample :
    normalizeUrl "https://example.com/" = "example.com" ∧
    (normalizeUrl "https://example.com/").data.getLast? ≠ some '/' := by
  decide

theorem claim7_witness :
    normalizeUrl "https://example.com/"
      = (toLowerStr (stripWwwStr "example.com") ++ "/").data.dropLast.asString
        ++ serializeSearch (canonicalizeParams true true (parseQueryEntries "")) :=
  (claim7_amended "https://example.com/"
    { protocol := "https:", hostname := "example.com", port := "",
      pathname := "/", search := "", hash := "" }
    (by decide) (by decide)).1 (by decide)

end TabBrain
